import Mathlib

/-!
Shallow embedding of the band-plan generator in
`src/hurdle2/generate_band_plan.py`, together with theorems checking the
specification's claims about it.

Modelling conventions:
* Python floats are modelled as rationals (`ℚ`); Python ints as `ℕ`/`ℤ`
  following the documented domains of the parameters.
* The process-wide pseudo-random source seeded by `random.seed(instance_seed)`
  is modelled as an abstract stream `σ : ℕ → ℚ` of raw draws together with a
  counter: each call to a `random` primitive consumes exactly one raw value
  and maps it into the requested range (`randint` via flooring modulo the
  range size, `uniform` via the fractional part, `choice` via an index modulo
  the sequence length).  Quantifying over all streams covers every behaviour
  of the seeded generator, and any concrete outcome of a primitive is realised
  by some raw value.
* Python exceptions (`ZeroDivisionError` from `channel_bandwidth / n_bins`,
  `ValueError` from `random.randint(1, 0)`, `IndexError` from
  `random.choice([])`) are modelled by `Except Err`.
-/

/-- Errors mirroring the Python exceptions that `generate_band_plan` can raise. -/
inductive Err where
  /-- `ZeroDivisionError` from `channel_bandwidth / n_bins` when `n_bins = 0`. -/
  | zeroDivision
  /-- `ValueError` from `random.randint(1, max_signal_bins)` when `max_signal_bins < 1`. -/
  | invalidRandintRange
  /-- `IndexError` from `random.choice(valid_edges)` / `random.choice(valid_centers)` on `[]`. -/
  | emptyCenterChoice
  /-- `IndexError` from `random.choice(signal_types)` on `[]`. -/
  | emptyModulationChoice
  deriving DecidableEq

/-- The input parameters of `generate_band_plan`.  The `instance_seed`
parameter is modelled separately: seeding fixes the raw draw stream (see
`generate_band_plan_seeded`). -/
structure Params where
  channel_bandwidth : ℚ
  n_bins : ℕ
  n_signals : ℕ
  min_snr_db : ℚ
  max_snr_db : ℚ
  signal_types : List String
  max_signal_bins : ℕ
  max_tries : ℕ
  deriving DecidableEq

/-- One signal record (the Python dict `signal`) after all fields are set.
`n_bins` is the signal's width in bins, as in the source. -/
structure Signal where
  n_bins : ℕ
  snr : ℚ
  center_freq : ℚ
  occupied_bins : Finset ℤ
  guard_bins : Finset ℤ
  modulation_type : String
  deriving DecidableEq

/-- The candidate signal built in one loop iteration before the collision
check; `modulation_type` is not part of it because the source only assigns
`signal['modulation_type']` after the overlap check passes. -/
structure Candidate where
  n_bins : ℕ
  snr : ℚ
  center_freq : ℚ
  occupied_bins : Finset ℤ
  guard_bins : Finset ℤ
  deriving DecidableEq

/-- Attach the modulation type drawn after the collision check. -/
def Candidate.toSignal (c : Candidate) (m : String) : Signal :=
  ⟨c.n_bins, c.snr, c.center_freq, c.occupied_bins, c.guard_bins, m⟩

/-- The returned band plan record. -/
structure BandPlan where
  freq_span : ℚ
  n_bins : ℕ
  n_signals : ℕ
  signals : List Signal
  deriving DecidableEq

/-- `bin_edges = [i*bin_bandwidth - channel_bandwidth/2.0 for i in range(n_bins+1)]`
with `bin_bandwidth = channel_bandwidth/n_bins`. -/
def bin_edges (channel_bandwidth : ℚ) (n_bins : ℕ) : List ℚ :=
  (List.range (n_bins + 1)).map
    (fun i : ℕ => (i : ℚ) * (channel_bandwidth / n_bins) - channel_bandwidth / 2)

/-- `bin_centers = [i*bin_bandwidth + bin_bandwidth/2.0 - channel_bandwidth/2.0 for i in range(n_bins)]`. -/
def bin_centers (channel_bandwidth : ℚ) (n_bins : ℕ) : List ℚ :=
  (List.range n_bins).map
    (fun i : ℕ => (i : ℚ) * (channel_bandwidth / n_bins)
      + (channel_bandwidth / n_bins) / 2 - channel_bandwidth / 2)

/-- `valid_bins = set(range(n_bins))`, as a set of integers. -/
def valid_bins (n_bins : ℕ) : Finset ℤ :=
  (Finset.range n_bins).image (fun i : ℕ => (i : ℤ))

/-- Python's `min` on a set of ints; the source only applies it to the
nonempty set `signal['occupied_bins']`, so the default for `∅` is irrelevant. -/
def setMin (s : Finset ℤ) : ℤ := s.min.untop' 0

/-- Python's `max` on a set of ints; as for `setMin`, only used nonempty. -/
def setMax (s : Finset ℤ) : ℤ := s.max.unbot' 0

/-- `signal['guard_bins'] = {(min(occ)-1) % n_bins, (max(occ)+1) % n_bins} & valid_bins`. -/
def guardOf (n_bins : ℕ) (occ : Finset ℤ) : Finset ℤ :=
  ({(setMin occ - 1) % (n_bins : ℤ), (setMax occ + 1) % (n_bins : ℤ)} : Finset ℤ)
    ∩ valid_bins n_bins

/-- Python's `list.index`: the first position holding the given value
(the source applies it only to values that occur in the list). -/
def listIndex (l : List ℚ) (a : ℚ) : ℕ :=
  l.findIdx (fun x => decide (x = a))

/-- `valid_edges = bin_edges[num_invalid_edges : n_bins - num_invalid_edges]`
where `num_invalid_edges = int(width/2)`; Python slice `l[a:b] = (l.take b).drop a`. -/
def valid_edges (p : Params) (w : ℕ) : List ℚ :=
  ((bin_edges p.channel_bandwidth p.n_bins).take (p.n_bins - w / 2)).drop (w / 2)

/-- `valid_centers = bin_centers[num_invalid_bins : n_bins - num_invalid_bins]`. -/
def valid_centers (p : Params) (w : ℕ) : List ℚ :=
  ((bin_centers p.channel_bandwidth p.n_bins).take (p.n_bins - w / 2)).drop (w / 2)

/-- `random.choice(l)`: uniform element of a nonempty sequence, `IndexError`
(here: the supplied error) on an empty one.  The raw draw selects the index. -/
def choice (e : Err) (σ : ℕ → ℚ) (k : ℕ) (l : List α) : Except Err α :=
  match l with
  | [] => .error e
  | x :: xs =>
      .ok ((x :: xs).get
        ⟨(⌊σ k⌋).toNat % (x :: xs).length, Nat.mod_lt _ (Nat.succ_pos xs.length)⟩)

/-- `random.uniform(a, b) = a + (b-a) * random()` with `random() ∈ [0, 1)`. -/
def uniform (σ : ℕ → ℚ) (k : ℕ) (a b : ℚ) : ℚ :=
  a + (b - a) * Int.fract (σ k)

/-- One iteration's candidate construction (source lines 114-157): draw the
width (`random.randint(1, max_signal_bins)`), the SNR, and the center
frequency by width parity; recover the index of the drawn center with
`list.index`; build `occupied_bins` and `guard_bins`.  Consumes the raw
draws at positions `k`, `k+1`, `k+2`. -/
def genCandidate (p : Params) (σ : ℕ → ℚ) (k : ℕ) : Except Err (Candidate × ℕ) :=
  if p.max_signal_bins = 0 then .error .invalidRandintRange
  else
    let w := 1 + (⌊σ k⌋).toNat % p.max_signal_bins
    let snr := uniform σ (k + 1) p.min_snr_db p.max_snr_db
    if w % 2 = 0 then
      let half := w / 2
      match choice .emptyCenterChoice σ (k + 2) (valid_edges p w) with
      | .error e => .error e
      | .ok cf =>
          let edge_ind := listIndex (bin_edges p.channel_bandwidth p.n_bins) cf
          let occ := (Finset.range w).image
            (fun x : ℕ => (edge_ind : ℤ) - (half : ℤ) + (x : ℤ))
          .ok (⟨w, snr, cf, occ, guardOf p.n_bins occ⟩, k + 3)
    else
      let half := w / 2
      match choice .emptyCenterChoice σ (k + 2) (valid_centers p w) with
      | .error e => .error e
      | .ok cf =>
          let bin_ind := listIndex (bin_centers p.channel_bandwidth p.n_bins) cf
          let occ := (Finset.range w).image
            (fun x : ℕ => (bin_ind : ℤ) - (half : ℤ) + (x : ℤ))
          .ok (⟨w, snr, cf, occ, guardOf p.n_bins occ⟩, k + 3)

/-- The collision scan (source lines 159-166): does the candidate's occupied
set intersect some existing signal's occupied-or-guard set? -/
def overlapsAny (signals : List Signal) (occ : Finset ℤ) : Bool :=
  signals.any (fun existing =>
    decide (0 < (occ ∩ (existing.occupied_bins ∪ existing.guard_bins)).card))

/-- The rejection-sampling loop (source lines 109-173).  `fuel` is the number
of tries still allowed (`max_tries - tries`), so the loop guard
`tries < max_tries` becomes `fuel ≠ 0`; `tries` counts the iterations
executed, incremented once per iteration; `k` is the raw-draw counter.
Returns the accepted signals in acceptance order together with the final
draw counter and try count. -/
def genLoop (p : Params) (σ : ℕ → ℚ) :
    ℕ → List Signal → ℕ → ℕ → Except Err (List Signal × ℕ × ℕ)
  | 0, signals, k, tries => .ok (signals, k, tries)
  | fuel + 1, signals, k, tries =>
      if signals.length < p.n_signals then
        match genCandidate p σ k with
        | .error e => .error e
        | .ok (c, k₁) =>
            if overlapsAny signals c.occupied_bins then
              genLoop p σ fuel signals k₁ (tries + 1)
            else
              match choice .emptyModulationChoice σ k₁ p.signal_types with
              | .error e => .error e
              | .ok m =>
                  genLoop p σ fuel (signals ++ [c.toSignal m]) (k₁ + 1) (tries + 1)
      else .ok (signals, k, tries)

/-- `generate_band_plan`, also exposing the final raw-draw counter and try
count for the resource claims.  The leading test mirrors the
`ZeroDivisionError` that `bin_bandwidth = channel_bandwidth/n_bins` raises
when `n_bins = 0`. -/
def generateFull (p : Params) (σ : ℕ → ℚ) : Except Err (BandPlan × ℕ × ℕ) :=
  if p.n_bins = 0 then .error .zeroDivision
  else
    match genLoop p σ p.max_tries [] 0 0 with
    | .error e => .error e
    | .ok (signals, k, tries) =>
        .ok (⟨p.channel_bandwidth, p.n_bins, signals.length, signals⟩, k, tries)

/-- `generate_band_plan` (source lines 81-194): the returned band plan. -/
def generate_band_plan (p : Params) (σ : ℕ → ℚ) : Except Err BandPlan :=
  (generateFull p σ).map Prod.fst

/-- `random.seed(instance_seed)` makes every later draw a deterministic
function of the seed: `prng` maps a seed to its raw-draw stream. -/
def generate_band_plan_seeded (prng : ℤ → ℕ → ℚ) (p : Params) (seed : ℤ) :
    Except Err BandPlan :=
  generate_band_plan p (prng seed)

/-- Well-formedness of one accepted signal with respect to the parameters:
width in `1..max_signal_bins`; SNR between the two SNR endpoints (in either
order); modulation drawn from `signal_types`; occupied bins a contiguous,
non-wrapping integer interval inside `[0, n_bins)`; guard bins exactly the
two neighbours of the interval taken modulo `n_bins`. -/
def SignalWFP (p : Params) (s : Signal) : Prop :=
  1 ≤ s.n_bins ∧ s.n_bins ≤ p.max_signal_bins ∧
  min p.min_snr_db p.max_snr_db ≤ s.snr ∧
  s.snr ≤ max p.min_snr_db p.max_snr_db ∧
  s.modulation_type ∈ p.signal_types ∧
  ∃ lo : ℤ, s.occupied_bins = Finset.Icc lo (lo + s.n_bins - 1) ∧ 0 ≤ lo ∧
    lo + s.n_bins - 1 < p.n_bins ∧
    s.guard_bins =
      {(lo - 1) % (p.n_bins : ℤ), (lo + s.n_bins - 1 + 1) % (p.n_bins : ℤ)}

/-- The invariant maintained by the placement loop: every accepted signal is
well-formed, and each later signal's occupied set misses each earlier
signal's occupied-or-guard set (that is exactly the collision check the
source enforces on acceptance). -/
def PlanInv (p : Params) (l : List Signal) : Prop :=
  (∀ s ∈ l, SignalWFP p s) ∧
  l.Pairwise (fun a b =>
    b.occupied_bins ∩ (a.occupied_bins ∪ a.guard_bins) = ∅)

/-- Modelled from the spec's words for C4: the subsequence of `bin_edges`
with exactly the first `half` and the last `half` entries removed. -/
def valid_edges_spec (p : Params) (w : ℕ) : List ℚ :=
  ((bin_edges p.channel_bandwidth p.n_bins).take
    ((bin_edges p.channel_bandwidth p.n_bins).length - w / 2)).drop (w / 2)

/-- Test configuration with two requested width-1 signals on a 4-bin grid. -/
def pA : Params := ⟨8, 4, 2, 0, 0, ["FM", "QPSK"], 1, 3⟩

/-- Raw-draw stream for the `pA` run: the center draws of the three attempts
are positions 2, 6, 9 under the code's draw order. -/
def σA : ℕ → ℚ := fun n => if n = 9 then 2 else if n = 10 then 2 else if n = 11 then 1 else 0

/-- First accepted signal of the `pA` run. -/
def sA0 : Signal := ⟨1, 0, -3, {0}, {3, 1}, "FM"⟩

/-- Second accepted signal of the `pA` run under the code's draw order. -/
def sA1 : Signal := ⟨1, 0, 1, {2}, {1, 3}, "FM"⟩

/-- The plan produced by the `pA` run. -/
def planA : BandPlan := ⟨8, 4, 2, [sA0, sA1]⟩

/-- Modelled from the spec (§4.2 step 5 and §4.3) for claim C8: the loop as
the spec describes it, with `modulation_type` drawn as part of candidate
generation, before the collision check, so every attempt consumes four raw
draws whether it is accepted or rejected. -/
def genLoop_spec (p : Params) (σ : ℕ → ℚ) :
    ℕ → List Signal → ℕ → ℕ → Except Err (List Signal × ℕ × ℕ)
  | 0, signals, k, tries => .ok (signals, k, tries)
  | fuel + 1, signals, k, tries =>
      if signals.length < p.n_signals then
        match genCandidate p σ k with
        | .error e => .error e
        | .ok (c, k₁) =>
            match choice Err.emptyModulationChoice σ k₁ p.signal_types with
            | .error e => .error e
            | .ok m =>
                if overlapsAny signals c.occupied_bins then
                  genLoop_spec p σ fuel signals (k₁ + 1) (tries + 1)
                else
                  genLoop_spec p σ fuel (signals ++ [c.toSignal m]) (k₁ + 1) (tries + 1)
      else .ok (signals, k, tries)

/-- Modelled from the spec for claim C8: `generate_band_plan` built on the
spec-ordered loop `genLoop_spec`. -/
def generate_band_plan_spec (p : Params) (σ : ℕ → ℚ) : Except Err BandPlan :=
  if p.n_bins = 0 then .error Err.zeroDivision
  else
    match genLoop_spec p σ p.max_tries [] 0 0 with
    | .error e => .error e
    | .ok (signals, _, _) =>
        .ok ⟨p.channel_bandwidth, p.n_bins, signals.length, signals⟩

/-- Second accepted signal of the `pA` run under the spec's draw order: the
extra modulation draw consumed on the rejected attempt shifts the later
draws, changing the modulation type. -/
def sA1q : Signal := ⟨1, 0, 1, {2}, {1, 3}, "QPSK"⟩

/-- The plan the spec-ordered loop produces on the `pA` run. -/
def planAspec : BandPlan := ⟨8, 4, 2, [sA0, sA1q]⟩

/-- Test configuration forcing an even drawn width on a 3-bin grid. -/
def pD : Params := ⟨6, 3, 1, 0, 0, ["FM"], 2, 1⟩

/-- Constant raw-draw stream of `1`, drawing width 2 under `pD`. -/
def σD : ℕ → ℚ := fun _ => 1

/-- Test configuration with `max_tries = 0`. -/
def pT : Params := ⟨8, 4, 2, 0, 0, ["FM", "QPSK"], 1, 0⟩

/-- Test configuration with empty `signal_types` and a positive try budget. -/
def pC7 : Params := ⟨8, 4, 1, 0, 0, [], 1, 1⟩

/-- The all-zero raw-draw stream. -/
def σZ : ℕ → ℚ := fun _ => 0

/-- Test configuration with `min_snr_db > max_snr_db`. -/
def pC10 : Params := ⟨8, 4, 1, 2, 1, ["FM"], 1, 1⟩

/-! ### Basic lemmas about the random primitives and the grid -/

theorem choice_nil (e : Err) (σ : ℕ → ℚ) (k : ℕ) :
    choice e σ k ([] : List α) = .error e := rfl

theorem choice_ok_elim {e : Err} {σ : ℕ → ℚ} {k : ℕ} {l : List α} {a : α}
    (h : choice e σ k l = .ok a) :
    ∃ i : ℕ, ∃ hi : i < l.length, a = l.get ⟨i, hi⟩ := by
  cases l with
  | nil => exact absurd h (by simp [choice])
  | cons x xs =>
      refine ⟨(⌊σ k⌋).toNat % (x :: xs).length, Nat.mod_lt _ (Nat.succ_pos xs.length), ?_⟩
      simpa [choice] using h.symm

theorem choice_ok_mem {e : Err} {σ : ℕ → ℚ} {k : ℕ} {l : List α} {a : α}
    (h : choice e σ k l = .ok a) : a ∈ l := by
  obtain ⟨i, hi, rfl⟩ := choice_ok_elim h
  exact List.get_mem l i hi

theorem choice_ok_of_ne_nil (e : Err) (σ : ℕ → ℚ) (k : ℕ) {l : List α}
    (h : l ≠ []) : ∃ a, choice e σ k l = .ok a := by
  cases l with
  | nil => exact absurd rfl h
  | cons x xs => exact ⟨_, rfl⟩

theorem uniform_mem_uIcc (σ : ℕ → ℚ) (k : ℕ) (a b : ℚ) :
    min a b ≤ uniform σ k a b ∧ uniform σ k a b ≤ max a b := by
  have h0 : 0 ≤ Int.fract (σ k) := Int.fract_nonneg _
  have h1 : Int.fract (σ k) < 1 := Int.fract_lt_one _
  unfold uniform
  rcases le_total a b with hab | hab
  · rw [min_eq_left hab, max_eq_right hab]
    constructor <;> nlinarith
  · rw [min_eq_right hab, max_eq_left hab]
    constructor <;> nlinarith

theorem listIndex_get {l : List ℚ} (hnd : l.Nodup) :
    ∀ (i : ℕ) (hi : i < l.length), listIndex l (l.get ⟨i, hi⟩) = i := by
  induction l with
  | nil => intro i hi; exact absurd hi (by simp)
  | cons x xs ih =>
      intro i hi
      rcases List.nodup_cons.mp hnd with ⟨hx, hxs⟩
      cases i with
      | zero => simp [listIndex, List.findIdx_cons]
      | succ j =>
          have hj : j < xs.length := by simpa using hi
          have hget : (x :: xs).get ⟨j + 1, hi⟩ = xs.get ⟨j, hj⟩ := rfl
          have hne : x ≠ xs.get ⟨j, hj⟩ := fun hEq => hx (hEq ▸ List.get_mem xs j hj)
          simp only [hget, listIndex, List.findIdx_cons]
          rw [decide_eq_false hne, cond_false]
          have hrec := ih hxs j hj
          unfold listIndex at hrec
          rw [hrec]

theorem length_bin_edges (cb : ℚ) (n : ℕ) : (bin_edges cb n).length = n + 1 := by
  rw [bin_edges, List.length_map, List.length_range]

theorem length_bin_centers (cb : ℚ) (n : ℕ) : (bin_centers cb n).length = n := by
  rw [bin_centers, List.length_map, List.length_range]

theorem nodup_bin_edges {cb : ℚ} (hcb : 0 < cb) {n : ℕ} (hn : 1 ≤ n) :
    (bin_edges cb n).Nodup := by
  have hbb : (0 : ℚ) < cb / n := by
    apply div_pos hcb
    exact_mod_cast hn
  unfold bin_edges
  refine List.Nodup.map ?_ (List.nodup_range _)
  intro i j hij
  have h2 : (i : ℚ) * (cb / n) = (j : ℚ) * (cb / n) := by linarith [hij]
  have h3 : (i : ℚ) = j := mul_right_cancel₀ (ne_of_gt hbb) h2
  exact_mod_cast h3

theorem nodup_bin_centers {cb : ℚ} (hcb : 0 < cb) {n : ℕ} (hn : 1 ≤ n) :
    (bin_centers cb n).Nodup := by
  have hbb : (0 : ℚ) < cb / n := by
    apply div_pos hcb
    exact_mod_cast hn
  unfold bin_centers
  refine List.Nodup.map ?_ (List.nodup_range _)
  intro i j hij
  have h2 : (i : ℚ) * (cb / n) = (j : ℚ) * (cb / n) := by linarith [hij]
  have h3 : (i : ℚ) = j := mul_right_cancel₀ (ne_of_gt hbb) h2
  exact_mod_cast h3

theorem mem_valid_bins {n : ℕ} {b : ℤ} : b ∈ valid_bins n ↔ 0 ≤ b ∧ b < n := by
  simp only [valid_bins, Finset.mem_image, Finset.mem_range]
  constructor
  · rintro ⟨i, hi, rfl⟩
    omega
  · intro hb
    exact ⟨b.toNat, by omega, by omega⟩

theorem image_range_add_Icc (a : ℤ) (w : ℕ) :
    (Finset.range w).image (fun x : ℕ => a + (x : ℤ)) = Finset.Icc a (a + w - 1) := by
  ext y
  simp only [Finset.mem_image, Finset.mem_range, Finset.mem_Icc]
  constructor
  · rintro ⟨x, hx, rfl⟩
    omega
  · intro hy
    exact ⟨(y - a).toNat, by omega, by omega⟩

theorem setMin_Icc {lo hi : ℤ} (h : lo ≤ hi) : setMin (Finset.Icc lo hi) = lo := by
  have hne : (Finset.Icc lo hi).Nonempty := Finset.nonempty_Icc.mpr h
  have hmin : (Finset.Icc lo hi).min' hne = lo := by
    refine le_antisymm (Finset.min'_le _ _ (Finset.mem_Icc.mpr ⟨le_refl _, h⟩)) ?_
    exact Finset.le_min' _ _ _ (fun y hy => (Finset.mem_Icc.mp hy).1)
  have hcoe := Finset.coe_min' hne
  rw [hmin] at hcoe
  unfold setMin
  rw [← hcoe]
  rfl

theorem setMax_Icc {lo hi : ℤ} (h : lo ≤ hi) : setMax (Finset.Icc lo hi) = hi := by
  have hne : (Finset.Icc lo hi).Nonempty := Finset.nonempty_Icc.mpr h
  have hmax : (Finset.Icc lo hi).max' hne = hi := by
    refine le_antisymm ?_ (Finset.le_max' _ _ (Finset.mem_Icc.mpr ⟨h, le_refl _⟩))
    exact Finset.max'_le _ _ _ (fun y hy => (Finset.mem_Icc.mp hy).2)
  have hcoe := Finset.coe_max' hne
  rw [hmax] at hcoe
  unfold setMax
  rw [← hcoe]
  rfl

theorem guardOf_Icc {n : ℕ} (hn : 1 ≤ n) {lo hi : ℤ} (h1 : lo ≤ hi)
    (h2 : 0 ≤ lo) (h3 : hi < n) :
    guardOf n (Finset.Icc lo hi) =
      ({(lo - 1) % (n : ℤ), (hi + 1) % (n : ℤ)} : Finset ℤ) := by
  have hnz : (n : ℤ) ≠ 0 := by omega
  have hpos : (0 : ℤ) < n := by omega
  unfold guardOf
  rw [setMin_Icc h1, setMax_Icc h1]
  refine Finset.inter_eq_left.mpr ?_
  intro b hb
  rcases Finset.mem_insert.mp hb with hb1 | hb1
  · subst hb1
    exact mem_valid_bins.mpr ⟨Int.emod_nonneg _ hnz, Int.emod_lt_of_pos _ hpos⟩
  · rw [Finset.mem_singleton.mp hb1]
    exact mem_valid_bins.mpr ⟨Int.emod_nonneg _ hnz, Int.emod_lt_of_pos _ hpos⟩

/-! ### Candidate generation: draw accounting and well-formedness -/

theorem length_valid_edges (p : Params) (w : ℕ) :
    (valid_edges p w).length =
      min (p.n_bins - w / 2) (p.n_bins + 1) - w / 2 := by
  simp [valid_edges, List.length_drop, List.length_take, length_bin_edges]

theorem length_valid_centers (p : Params) (w : ℕ) :
    (valid_centers p w).length =
      min (p.n_bins - w / 2) p.n_bins - w / 2 := by
  simp [valid_centers, List.length_drop, List.length_take, length_bin_centers]

theorem get_valid_edges (p : Params) (w i : ℕ) (hi : i < (valid_edges p w).length) :
    ∃ hL : w / 2 + i < (bin_edges p.channel_bandwidth p.n_bins).length,
      (valid_edges p w).get ⟨i, hi⟩ =
        (bin_edges p.channel_bandwidth p.n_bins).get ⟨w / 2 + i, hL⟩ := by
  have hi' := hi
  rw [length_valid_edges] at hi'
  have hL : w / 2 + i < (bin_edges p.channel_bandwidth p.n_bins).length := by
    rw [length_bin_edges]
    omega
  refine ⟨hL, ?_⟩
  simp [valid_edges, List.get_eq_getElem, List.getElem_drop, List.getElem_take]

theorem get_valid_centers (p : Params) (w i : ℕ) (hi : i < (valid_centers p w).length) :
    ∃ hL : w / 2 + i < (bin_centers p.channel_bandwidth p.n_bins).length,
      (valid_centers p w).get ⟨i, hi⟩ =
        (bin_centers p.channel_bandwidth p.n_bins).get ⟨w / 2 + i, hL⟩ := by
  have hi' := hi
  rw [length_valid_centers] at hi'
  have hL : w / 2 + i < (bin_centers p.channel_bandwidth p.n_bins).length := by
    rw [length_bin_centers]
    omega
  refine ⟨hL, ?_⟩
  simp [valid_centers, List.get_eq_getElem, List.getElem_drop, List.getElem_take]

theorem genCandidate_ok_advance {p : Params} {σ : ℕ → ℚ} {k : ℕ} {c : Candidate}
    {k₁ : ℕ} (h : genCandidate p σ k = .ok (c, k₁)) : k₁ = k + 3 := by
  simp only [genCandidate] at h
  by_cases hmsb0 : p.max_signal_bins = 0
  · rw [if_pos hmsb0] at h
    simp at h
  · rw [if_neg hmsb0] at h
    by_cases hpar : (1 + (⌊σ k⌋).toNat % p.max_signal_bins) % 2 = 0
    · rw [if_pos hpar] at h
      cases hch : choice Err.emptyCenterChoice σ (k + 2)
          (valid_edges p (1 + (⌊σ k⌋).toNat % p.max_signal_bins)) with
      | error e => rw [hch] at h; simp at h
      | ok cf =>
          rw [hch] at h
          simp only [Except.ok.injEq, Prod.mk.injEq] at h
          exact h.2.symm
    · rw [if_neg hpar] at h
      cases hch : choice Err.emptyCenterChoice σ (k + 2)
          (valid_centers p (1 + (⌊σ k⌋).toNat % p.max_signal_bins)) with
      | error e => rw [hch] at h; simp at h
      | ok cf =>
          rw [hch] at h
          simp only [Except.ok.injEq, Prod.mk.injEq] at h
          exact h.2.symm

theorem genCandidate_ok_wf {p : Params} {σ : ℕ → ℚ} {k : ℕ} {c : Candidate}
    {k₁ : ℕ} (hn : 1 ≤ p.n_bins) (hcb : 0 < p.channel_bandwidth)
    (h : genCandidate p σ k = .ok (c, k₁)) :
    1 ≤ c.n_bins ∧ c.n_bins ≤ p.max_signal_bins ∧
    c.snr = uniform σ (k + 1) p.min_snr_db p.max_snr_db ∧
    ∃ lo : ℤ, c.occupied_bins = Finset.Icc lo (lo + c.n_bins - 1) ∧ 0 ≤ lo ∧
      lo + c.n_bins - 1 < p.n_bins ∧
      c.guard_bins =
        {(lo - 1) % (p.n_bins : ℤ), (lo + c.n_bins - 1 + 1) % (p.n_bins : ℤ)} ∧
      (c.n_bins % 2 = 0 →
        lo = (listIndex (bin_edges p.channel_bandwidth p.n_bins) c.center_freq : ℤ)
          - (c.n_bins / 2 : ℕ)) := by
  simp only [genCandidate] at h
  by_cases hmsb0 : p.max_signal_bins = 0
  · rw [if_pos hmsb0] at h
    simp at h
  · rw [if_neg hmsb0] at h
    set w := 1 + (⌊σ k⌋).toNat % p.max_signal_bins with hwdef
    have hw1 : 1 ≤ w := by omega
    have hwle : w ≤ p.max_signal_bins := by
      have := Nat.mod_lt (⌊σ k⌋).toNat (show 0 < p.max_signal_bins by omega)
      omega
    by_cases hpar : w % 2 = 0
    · rw [if_pos hpar] at h
      cases hch : choice Err.emptyCenterChoice σ (k + 2) (valid_edges p w) with
      | error e => rw [hch] at h; simp at h
      | ok cf =>
          rw [hch] at h
          simp only [Except.ok.injEq, Prod.mk.injEq] at h
          obtain ⟨hc, hk⟩ := h
          subst hc
          obtain ⟨i, hi, rfl⟩ := choice_ok_elim hch
          obtain ⟨hL, hget⟩ := get_valid_edges p w i hi
          have hnd := nodup_bin_edges hcb hn
          have hind : listIndex (bin_edges p.channel_bandwidth p.n_bins)
              ((valid_edges p w).get ⟨i, hi⟩) = w / 2 + i := by
            rw [hget]
            exact listIndex_get hnd _ _
          have hi' := hi
          rw [length_valid_edges] at hi'
          refine ⟨hw1, hwle, rfl, (i : ℤ), ?_, ?_, ?_, ?_, ?_⟩
          · show (Finset.range w).image _ = _
            rw [hind]
            have hfun : (fun x : ℕ => ((w / 2 + i : ℕ) : ℤ) - ((w / 2 : ℕ) : ℤ) + (x : ℤ))
                = fun x : ℕ => (i : ℤ) + (x : ℤ) := by
              funext x
              push_cast
              ring
            rw [hfun]
            exact image_range_add_Icc _ _
          · exact Int.natCast_nonneg i
          · show (i : ℤ) + w - 1 < p.n_bins
            have hweq : w = 2 * (w / 2) := by omega
            omega
          · show guardOf p.n_bins ((Finset.range w).image _) = _
            rw [hind]
            have hfun : (fun x : ℕ => ((w / 2 + i : ℕ) : ℤ) - ((w / 2 : ℕ) : ℤ) + (x : ℤ))
                = fun x : ℕ => (i : ℤ) + (x : ℤ) := by
              funext x
              push_cast
              ring
            rw [hfun, image_range_add_Icc]
            have hle : (i : ℤ) ≤ (i : ℤ) + w - 1 := by omega
            have hlt : (i : ℤ) + w - 1 < p.n_bins := by
              have hweq : w = 2 * (w / 2) := by omega
              omega
            rw [guardOf_Icc hn hle (Int.natCast_nonneg i) hlt]
          · intro _
            rw [hind]
            push_cast
            ring
    · rw [if_neg hpar] at h
      cases hch : choice Err.emptyCenterChoice σ (k + 2) (valid_centers p w) with
      | error e => rw [hch] at h; simp at h
      | ok cf =>
          rw [hch] at h
          simp only [Except.ok.injEq, Prod.mk.injEq] at h
          obtain ⟨hc, hk⟩ := h
          subst hc
          obtain ⟨i, hi, rfl⟩ := choice_ok_elim hch
          obtain ⟨hL, hget⟩ := get_valid_centers p w i hi
          have hnd := nodup_bin_centers hcb hn
          have hind : listIndex (bin_centers p.channel_bandwidth p.n_bins)
              ((valid_centers p w).get ⟨i, hi⟩) = w / 2 + i := by
            rw [hget]
            exact listIndex_get hnd _ _
          have hi' := hi
          rw [length_valid_centers] at hi'
          refine ⟨hw1, hwle, rfl, (i : ℤ), ?_, ?_, ?_, ?_, ?_⟩
          · show (Finset.range w).image _ = _
            rw [hind]
            have hfun : (fun x : ℕ => ((w / 2 + i : ℕ) : ℤ) - ((w / 2 : ℕ) : ℤ) + (x : ℤ))
                = fun x : ℕ => (i : ℤ) + (x : ℤ) := by
              funext x
              push_cast
              ring
            rw [hfun]
            exact image_range_add_Icc _ _
          · exact Int.natCast_nonneg i
          · show (i : ℤ) + w - 1 < p.n_bins
            have hweq : w = 2 * (w / 2) + 1 := by omega
            omega
          · show guardOf p.n_bins ((Finset.range w).image _) = _
            rw [hind]
            have hfun : (fun x : ℕ => ((w / 2 + i : ℕ) : ℤ) - ((w / 2 : ℕ) : ℤ) + (x : ℤ))
                = fun x : ℕ => (i : ℤ) + (x : ℤ) := by
              funext x
              push_cast
              ring
            rw [hfun, image_range_add_Icc]
            have hle : (i : ℤ) ≤ (i : ℤ) + w - 1 := by omega
            have hlt : (i : ℤ) + w - 1 < p.n_bins := by
              have hweq : w = 2 * (w / 2) + 1 := by omega
              omega
            rw [guardOf_Icc hn hle (Int.natCast_nonneg i) hlt]
          · intro habs
            exact absurd habs hpar

theorem genCandidate_ok_of {p : Params} (σ : ℕ → ℚ) (k : ℕ)
    (hmsb : 1 ≤ p.max_signal_bins) (hle : p.max_signal_bins ≤ p.n_bins)
    (heven : p.max_signal_bins % 2 = 0 → p.max_signal_bins < p.n_bins) :
    ∃ c, genCandidate p σ k = .ok (c, k + 3) := by
  simp only [genCandidate]
  rw [if_neg (by omega : ¬ p.max_signal_bins = 0)]
  set w := 1 + (⌊σ k⌋).toNat % p.max_signal_bins with hwdef
  have hw1 : 1 ≤ w := by omega
  have hwle : w ≤ p.max_signal_bins := by
    have := Nat.mod_lt (⌊σ k⌋).toNat (show 0 < p.max_signal_bins by omega)
    omega
  by_cases hpar : w % 2 = 0
  · rw [if_pos hpar]
    have hwn : w < p.n_bins := by
      by_cases hmeq : w = p.max_signal_bins
      · exact hmeq ▸ heven (hmeq ▸ hpar)
      · omega
    have hne : valid_edges p w ≠ [] := by
      refine List.ne_nil_of_length_pos ?_
      rw [length_valid_edges]
      have hweq : w = 2 * (w / 2) := by omega
      omega
    obtain ⟨cf, hcf⟩ := choice_ok_of_ne_nil Err.emptyCenterChoice σ (k + 2) hne
    rw [hcf]
    exact ⟨_, rfl⟩
  · rw [if_neg hpar]
    have hne : valid_centers p w ≠ [] := by
      refine List.ne_nil_of_length_pos ?_
      rw [length_valid_centers]
      have hweq : w = 2 * (w / 2) + 1 := by omega
      omega
    obtain ⟨cf, hcf⟩ := choice_ok_of_ne_nil Err.emptyCenterChoice σ (k + 2) hne
    rw [hcf]
    exact ⟨_, rfl⟩

theorem overlapsAny_eq_false {signals : List Signal} {occ : Finset ℤ}
    (h : overlapsAny signals occ = false) :
    ∀ s ∈ signals, occ ∩ (s.occupied_bins ∪ s.guard_bins) = ∅ := by
  intro s hs
  simp only [overlapsAny, List.any_eq_false, decide_eq_true_eq] at h
  have hcard := h s hs
  rw [← Finset.card_eq_zero]
  omega

theorem genLoop_inv {p : Params} {σ : ℕ → ℚ} (hn : 1 ≤ p.n_bins)
    (hcb : 0 < p.channel_bandwidth) :
    ∀ (fuel : ℕ) (signals : List Signal) (k tries : ℕ)
      (out : List Signal × ℕ × ℕ),
      PlanInv p signals → genLoop p σ fuel signals k tries = .ok out →
      PlanInv p out.1 := by
  intro fuel
  induction fuel with
  | zero =>
      intro signals k tries out hinv h
      simp only [genLoop, Except.ok.injEq] at h
      rw [← h]
      exact hinv
  | succ fuel ih =>
      intro signals k tries out hinv h
      simp only [genLoop] at h
      by_cases hlen : signals.length < p.n_signals
      · rw [if_pos hlen] at h
        cases hcand : genCandidate p σ k with
        | error e => rw [hcand] at h; simp at h
        | ok ck =>
            obtain ⟨c, k₁⟩ := ck
            rw [hcand] at h
            simp only [] at h
            by_cases hov : overlapsAny signals c.occupied_bins = true
            · rw [if_pos hov] at h
              exact ih signals k₁ (tries + 1) out hinv h
            · rw [if_neg hov] at h
              have hov' : overlapsAny signals c.occupied_bins = false := by
                simpa using hov
              cases hm : choice Err.emptyModulationChoice σ k₁ p.signal_types with
              | error e => rw [hm] at h; simp at h
              | ok m =>
                  rw [hm] at h
                  refine ih _ _ _ out ⟨?_, ?_⟩ h
                  · intro s hs
                    rcases List.mem_append.mp hs with hs1 | hs1
                    · exact hinv.1 s hs1
                    · rw [List.mem_singleton.mp hs1]
                      obtain ⟨hb1, hb2, hsnr, lo, hocc, hlo0, hhi, hguard, _⟩ :=
                        genCandidate_ok_wf hn hcb hcand
                      have hu := uniform_mem_uIcc σ (k + 1) p.min_snr_db p.max_snr_db
                      have hsnr1 : (c.toSignal m).snr = c.snr := rfl
                      refine ⟨hb1, hb2, ?_, ?_, choice_ok_mem hm, lo, hocc, hlo0, hhi, hguard⟩
                      · rw [hsnr1, hsnr]
                        exact hu.1
                      · rw [hsnr1, hsnr]
                        exact hu.2
                  · rw [List.pairwise_append]
                    refine ⟨hinv.2, by simp, ?_⟩
                    intro a ha b hb
                    rw [List.mem_singleton.mp hb]
                    exact overlapsAny_eq_false hov' a ha
      · rw [if_neg hlen] at h
        simp only [Except.ok.injEq] at h
        rw [← h]
        exact hinv

theorem genLoop_counts {p : Params} {σ : ℕ → ℚ} :
    ∀ (fuel : ℕ) (signals : List Signal) (k tries : ℕ)
      (s₁ : List Signal) (k₁ t₁ : ℕ),
      genLoop p σ fuel signals k tries = .ok (s₁, k₁, t₁) →
      t₁ ≤ tries + fuel ∧
      k₁ + 3 * tries + signals.length = k + 3 * t₁ + s₁.length ∧
      (signals.length ≤ p.n_signals → s₁.length ≤ p.n_signals) := by
  intro fuel
  induction fuel with
  | zero =>
      intro signals k tries s₁ k₁ t₁ h
      simp only [genLoop, Except.ok.injEq, Prod.mk.injEq] at h
      obtain ⟨h1, h2, h3⟩ := h
      subst h1; subst h2; subst h3
      exact ⟨by omega, by omega, fun hh => hh⟩
  | succ fuel ih =>
      intro signals k tries s₁ k₁ t₁ h
      simp only [genLoop] at h
      by_cases hlen : signals.length < p.n_signals
      · rw [if_pos hlen] at h
        cases hcand : genCandidate p σ k with
        | error e => rw [hcand] at h; simp at h
        | ok ck =>
            obtain ⟨c, kc⟩ := ck
            have hkc : kc = k + 3 := genCandidate_ok_advance hcand
            rw [hcand] at h
            simp only [] at h
            by_cases hov : overlapsAny signals c.occupied_bins = true
            · rw [if_pos hov] at h
              obtain ⟨t1a, t1b, t1c⟩ := ih signals kc (tries + 1) s₁ k₁ t₁ h
              subst hkc
              exact ⟨by omega, by omega, t1c⟩
            · rw [if_neg hov] at h
              cases hm : choice Err.emptyModulationChoice σ kc p.signal_types with
              | error e => rw [hm] at h; simp at h
              | ok m =>
                  rw [hm] at h
                  obtain ⟨t1a, t1b, t1c⟩ :=
                    ih (signals ++ [c.toSignal m]) (kc + 1) (tries + 1) s₁ k₁ t₁ h
                  subst hkc
                  have hlapp : (signals ++ [c.toSignal m]).length
                      = signals.length + 1 := by simp
                  rw [hlapp] at t1b
                  exact ⟨by omega, by omega, fun hh => t1c (by omega)⟩
      · rw [if_neg hlen] at h
        simp only [Except.ok.injEq, Prod.mk.injEq] at h
        obtain ⟨h1, h2, h3⟩ := h
        subst h1; subst h2; subst h3
        exact ⟨by omega, by omega, fun hh => hh⟩

theorem genLoop_ok {p : Params} (σ : ℕ → ℚ)
    (hmsb : 1 ≤ p.max_signal_bins) (hle : p.max_signal_bins ≤ p.n_bins)
    (heven : p.max_signal_bins % 2 = 0 → p.max_signal_bins < p.n_bins)
    (htypes : p.signal_types ≠ []) :
    ∀ (fuel : ℕ) (signals : List Signal) (k tries : ℕ),
      ∃ out, genLoop p σ fuel signals k tries = .ok out := by
  intro fuel
  induction fuel with
  | zero => intro signals k tries; exact ⟨_, rfl⟩
  | succ fuel ih =>
      intro signals k tries
      by_cases hlen : signals.length < p.n_signals
      · obtain ⟨c, hc⟩ := genCandidate_ok_of σ k hmsb hle heven
        by_cases hov : overlapsAny signals c.occupied_bins = true
        · obtain ⟨out, hout⟩ := ih signals (k + 3) (tries + 1)
          refine ⟨out, ?_⟩
          simp only [genLoop]
          rw [if_pos hlen, hc]
          simp only []
          rw [if_pos hov]
          exact hout
        · obtain ⟨m, hm⟩ := choice_ok_of_ne_nil Err.emptyModulationChoice σ (k + 3) htypes
          obtain ⟨out, hout⟩ := ih (signals ++ [c.toSignal m]) (k + 3 + 1) (tries + 1)
          refine ⟨out, ?_⟩
          simp only [genLoop]
          rw [if_pos hlen, hc]
          simp only []
          rw [if_neg hov, hm]
          simp only []
          exact hout
      · refine ⟨(signals, k, tries), ?_⟩
        simp only [genLoop]
        rw [if_neg hlen]

/-! ### Symmetry of the enforced disjointness -/

theorem neg_one_emod {N : ℤ} (hN : 1 ≤ N) : (-1 : ℤ) % N = N - 1 := by
  have h2 := Int.add_mul_emod_self_left (-1) N 1
  rw [show (-1 : ℤ) + N * 1 = N - 1 by ring] at h2
  rw [← h2]
  exact Int.emod_eq_of_lt (by omega) (by omega)

theorem emod_lo_guard {N lo : ℤ} (hN : 1 ≤ N) (h0 : 0 ≤ lo) (hlt : lo < N) :
    (lo - 1) % N = if lo = 0 then N - 1 else lo - 1 := by
  by_cases h : lo = 0
  · rw [if_pos h, show lo - 1 = -1 by omega]
    exact neg_one_emod hN
  · rw [if_neg h]
    exact Int.emod_eq_of_lt (by omega) (by omega)

theorem emod_hi_guard {N hi : ℤ} (hN : 1 ≤ N) (h0 : 0 ≤ hi) (hlt : hi < N) :
    (hi + 1) % N = if hi = N - 1 then 0 else hi + 1 := by
  by_cases h : hi = N - 1
  · rw [if_pos h, show hi + 1 = N by omega]
    simp
  · rw [if_neg h]
    exact Int.emod_eq_of_lt (by omega) (by omega)

/-- Although the source's collision check is one-sided (a new signal's
occupied set against each existing one's occupied-or-guard set), it already
forces the symmetric property: the earlier signal's occupied set also misses
the later one's occupied-or-guard set.  The key point is that a guard bin of
`[lo₂, hi₂]` can only land inside `[lo₁, hi₁]` when the two intervals are
adjacent (possibly through the modulo wraparound), and adjacency is exactly
what the one-sided check against the first signal's guard bins excludes. -/
theorem occ_guard_symm {N lo₁ hi₁ lo₂ hi₂ : ℤ} (hN : 1 ≤ N)
    (h10 : 0 ≤ lo₁) (h1le : lo₁ ≤ hi₁) (h1N : hi₁ < N)
    (h20 : 0 ≤ lo₂) (h2le : lo₂ ≤ hi₂) (h2N : hi₂ < N)
    (hd : Finset.Icc lo₂ hi₂ ∩
      (Finset.Icc lo₁ hi₁ ∪ {(lo₁ - 1) % N, (hi₁ + 1) % N}) = ∅) :
    Finset.Icc lo₁ hi₁ ∩
      (Finset.Icc lo₂ hi₂ ∪ {(lo₂ - 1) % N, (hi₂ + 1) % N}) = ∅ := by
  have g1a := emod_lo_guard hN h10 (by omega : lo₁ < N)
  have g1b := emod_hi_guard hN (by omega : 0 ≤ hi₁) h1N
  have g2a := emod_lo_guard hN h20 (by omega : lo₂ < N)
  have g2b := emod_hi_guard hN (by omega : 0 ≤ hi₂) h2N
  rw [Finset.eq_empty_iff_forall_not_mem] at hd ⊢
  intro x hx
  simp only [Finset.mem_inter, Finset.mem_union, Finset.mem_Icc, Finset.mem_insert,
    Finset.mem_singleton] at hx hd
  have Hlo2 := hd lo₂
  have Hhi2 := hd hi₂
  have Hx := hd x
  rw [g1a, g1b] at Hlo2 Hhi2 Hx
  rw [g2a, g2b] at hx
  split_ifs at hx Hlo2 Hhi2 Hx
  all_goals omega

/-! ### Eliminating and building `generateFull` results -/

theorem generateFull_ok_elim {p : Params} {σ : ℕ → ℚ} {plan : BandPlan}
    {k t : ℕ} (h : generateFull p σ = .ok (plan, k, t)) :
    p.n_bins ≠ 0 ∧ ∃ s₁, genLoop p σ p.max_tries [] 0 0 = .ok (s₁, k, t) ∧
      plan = ⟨p.channel_bandwidth, p.n_bins, s₁.length, s₁⟩ := by
  unfold generateFull at h
  by_cases hn0 : p.n_bins = 0
  · rw [if_pos hn0] at h
    simp at h
  · rw [if_neg hn0] at h
    refine ⟨hn0, ?_⟩
    cases hl : genLoop p σ p.max_tries [] 0 0 with
    | error e => rw [hl] at h; simp at h
    | ok out =>
        obtain ⟨s₁, k₁, t₁⟩ := out
        rw [hl] at h
        simp only [Except.ok.injEq, Prod.mk.injEq] at h
        obtain ⟨hplan, hk, ht⟩ := h
        refine ⟨s₁, ?_, hplan.symm⟩
        rw [← hk, ← ht]

theorem generate_ok_elim {p : Params} {σ : ℕ → ℚ} {plan : BandPlan}
    (h : generate_band_plan p σ = .ok plan) :
    ∃ k t, generateFull p σ = .ok (plan, k, t) := by
  unfold generate_band_plan at h
  cases hf : generateFull p σ with
  | error e => rw [hf] at h; simp [Except.map] at h
  | ok out =>
      obtain ⟨plan1, k, t⟩ := out
      rw [hf] at h
      simp only [Except.map, Except.ok.injEq] at h
      rw [← h]
      exact ⟨k, t, rfl⟩

theorem generate_of_generateFull {p : Params} {σ : ℕ → ℚ} {plan : BandPlan}
    {k t : ℕ} (h : generateFull p σ = .ok (plan, k, t)) :
    generate_band_plan p σ = .ok plan := by
  unfold generate_band_plan
  rw [h]
  rfl

theorem generateFull_ok_of (p : Params) (σ : ℕ → ℚ) (hn : 1 ≤ p.n_bins)
    (hmsb : 1 ≤ p.max_signal_bins) (hle : p.max_signal_bins ≤ p.n_bins)
    (heven : p.max_signal_bins % 2 = 0 → p.max_signal_bins < p.n_bins)
    (htypes : p.signal_types ≠ []) :
    ∃ plan k t, generateFull p σ = .ok (plan, k, t) := by
  obtain ⟨out, hout⟩ := genLoop_ok σ hmsb hle heven htypes p.max_tries [] 0 0
  obtain ⟨s₁, k₁, t₁⟩ := out
  refine ⟨⟨p.channel_bandwidth, p.n_bins, s₁.length, s₁⟩, k₁, t₁, ?_⟩
  unfold generateFull
  rw [if_neg (by omega : ¬ p.n_bins = 0), hout]

theorem generate_planInv {p : Params} {σ : ℕ → ℚ} {plan : BandPlan}
    (hn : 1 ≤ p.n_bins) (hcb : 0 < p.channel_bandwidth)
    (h : generate_band_plan p σ = .ok plan) : PlanInv p plan.signals := by
  obtain ⟨k, t, hf⟩ := generate_ok_elim h
  obtain ⟨hn0, s₁, hl, hplan⟩ := generateFull_ok_elim hf
  have hinv := genLoop_inv hn hcb p.max_tries [] 0 0 (s₁, k, t)
    ⟨by simp, by simp⟩ hl
  rw [hplan]
  exact hinv

/-! ### Claim theorems -/

/-- Claim C1: in every plan returned by `generate_band_plan`, any two signals
at distinct positions have disjoint occupied sets, and each one's occupied
set is also disjoint from the other's occupied-or-guard set — symmetrically,
although the code only checks each new candidate against the previously
accepted signals. -/
theorem C1_symmetric_disjointness {p : Params} {σ : ℕ → ℚ} {plan : BandPlan}
    (hn : 1 ≤ p.n_bins) (hcb : 0 < p.channel_bandwidth)
    (h : generate_band_plan p σ = .ok plan)
    (i j : ℕ) (hi : i < plan.signals.length) (hj : j < plan.signals.length)
    (hij : i ≠ j) :
    (plan.signals.get ⟨i, hi⟩).occupied_bins ∩
      (plan.signals.get ⟨j, hj⟩).occupied_bins = ∅ ∧
    (plan.signals.get ⟨i, hi⟩).occupied_bins ∩
      ((plan.signals.get ⟨j, hj⟩).occupied_bins ∪
        (plan.signals.get ⟨j, hj⟩).guard_bins) = ∅ := by
  obtain ⟨hwf, hpw⟩ := generate_planInv hn hcb h
  obtain ⟨_, _, _, _, _, la, haocc, hla0, hlaN, hag⟩ :=
    hwf (plan.signals.get ⟨i, hi⟩) (List.get_mem _ i hi)
  obtain ⟨_, _, _, _, _, lb, hbocc, hlb0, hlbN, hbg⟩ :=
    hwf (plan.signals.get ⟨j, hj⟩) (List.get_mem _ j hj)
  obtain ⟨hwa1, _⟩ := hwf (plan.signals.get ⟨i, hi⟩) (List.get_mem _ i hi)
  obtain ⟨hwb1, _⟩ := hwf (plan.signals.get ⟨j, hj⟩) (List.get_mem _ j hj)
  rw [List.pairwise_iff_getElem] at hpw
  have hNcast : (1 : ℤ) ≤ (p.n_bins : ℤ) := by exact_mod_cast hn
  rcases Nat.lt_or_ge i j with hlt | hge
  · have hchk : (plan.signals.get ⟨j, hj⟩).occupied_bins ∩
        ((plan.signals.get ⟨i, hi⟩).occupied_bins ∪
          (plan.signals.get ⟨i, hi⟩).guard_bins) = ∅ :=
      hpw i j hi hj hlt
    rw [hbocc, haocc, hag] at hchk
    have hsym := occ_guard_symm hNcast hla0 (by omega) hlaN hlb0 (by omega) hlbN hchk
    constructor
    · rw [haocc, hbocc]
      have hsub : Finset.Icc la (la + (plan.signals.get ⟨i, hi⟩).n_bins - 1) ∩
          Finset.Icc lb (lb + (plan.signals.get ⟨j, hj⟩).n_bins - 1) ⊆
          Finset.Icc la (la + (plan.signals.get ⟨i, hi⟩).n_bins - 1) ∩
          (Finset.Icc lb (lb + (plan.signals.get ⟨j, hj⟩).n_bins - 1) ∪
            {(lb - 1) % (p.n_bins : ℤ),
              (lb + (plan.signals.get ⟨j, hj⟩).n_bins - 1 + 1) % (p.n_bins : ℤ)}) :=
        Finset.inter_subset_inter (Finset.Subset.refl _) Finset.subset_union_left
      exact Finset.subset_empty.mp (hsym ▸ hsub)
    · rw [haocc, hbocc, hbg]
      exact hsym
  · have hjlt : j < i := by omega
    have hchk : (plan.signals.get ⟨i, hi⟩).occupied_bins ∩
        ((plan.signals.get ⟨j, hj⟩).occupied_bins ∪
          (plan.signals.get ⟨j, hj⟩).guard_bins) = ∅ :=
      hpw j i hj hi hjlt
    refine ⟨?_, hchk⟩
    have hsub : (plan.signals.get ⟨i, hi⟩).occupied_bins ∩
        (plan.signals.get ⟨j, hj⟩).occupied_bins ⊆
        (plan.signals.get ⟨i, hi⟩).occupied_bins ∩
        ((plan.signals.get ⟨j, hj⟩).occupied_bins ∪
          (plan.signals.get ⟨j, hj⟩).guard_bins) :=
      Finset.inter_subset_inter (Finset.Subset.refl _) Finset.subset_union_left
    exact Finset.subset_empty.mp (hchk ▸ hsub)

/-- Claim C2: under the claimed preconditions every signal of a returned plan
is well-formed: its occupied bins form a contiguous integer interval of
exactly `n_bins`-many (the signal's width) values inside `[0, n_bins)` with
no wraparound, every guard bin lies in `[0, n_bins)`, the SNR lies in
`[min_snr_db, max_snr_db]`, and the modulation type is one of
`signal_types`. -/
theorem C2_per_signal_wellformed {p : Params} {σ : ℕ → ℚ} {plan : BandPlan}
    (hn : 1 ≤ p.n_bins) (hcb : 0 < p.channel_bandwidth)
    (hmsb : 1 ≤ p.max_signal_bins) (hle : p.max_signal_bins ≤ p.n_bins)
    (hsnr : p.min_snr_db ≤ p.max_snr_db) (htypes : p.signal_types ≠ [])
    (h : generate_band_plan p σ = .ok plan) :
    ∀ s ∈ plan.signals,
      (∃ lo : ℤ, s.occupied_bins = Finset.Icc lo (lo + s.n_bins - 1) ∧
        s.occupied_bins.card = s.n_bins ∧ 0 ≤ lo ∧ lo + s.n_bins - 1 < p.n_bins) ∧
      (∀ b ∈ s.guard_bins, 0 ≤ b ∧ b < p.n_bins) ∧
      p.min_snr_db ≤ s.snr ∧ s.snr ≤ p.max_snr_db ∧
      s.modulation_type ∈ p.signal_types := by
  intro s hs
  obtain ⟨hwf, _⟩ := generate_planInv hn hcb h
  obtain ⟨h1, h2, h3, h4, h5, lo, hocc, hlo0, hhi, hguard⟩ := hwf s hs
  refine ⟨⟨lo, hocc, ?_, hlo0, hhi⟩, ?_, ?_, ?_, h5⟩
  · rw [hocc, Int.card_Icc]
    omega
  · intro b hb
    rw [hguard] at hb
    have hnz : (p.n_bins : ℤ) ≠ 0 := by omega
    have hpos : (0 : ℤ) < (p.n_bins : ℤ) := by omega
    rcases Finset.mem_insert.mp hb with hb1 | hb1
    · rw [hb1]
      exact ⟨Int.emod_nonneg _ hnz, Int.emod_lt_of_pos _ hpos⟩
    · rw [Finset.mem_singleton.mp hb1]
      exact ⟨Int.emod_nonneg _ hnz, Int.emod_lt_of_pos _ hpos⟩
  · rw [min_eq_left hsnr] at h3
    exact h3
  · rw [max_eq_right hsnr] at h4
    exact h4

/-- Claim C5: the placement loop executes at most `max_tries` iterations
(`tries` is incremented exactly once per iteration), and `max_tries = 0`
yields the empty plan with `n_signals = 0`. -/
theorem C5_bounded_tries (p : Params) (σ : ℕ → ℚ) (hn : 1 ≤ p.n_bins) :
    (∀ plan k tries, generateFull p σ = .ok (plan, k, tries) →
      tries ≤ p.max_tries) ∧
    (p.max_tries = 0 →
      generate_band_plan p σ = .ok ⟨p.channel_bandwidth, p.n_bins, 0, []⟩) := by
  constructor
  · intro plan k tries h
    obtain ⟨hn0, s₁, hl, hplan⟩ := generateFull_ok_elim h
    have ht := (genLoop_counts p.max_tries [] 0 0 s₁ k tries hl).1
    omega
  · intro h0
    unfold generate_band_plan generateFull
    rw [h0, if_neg (by omega : ¬ p.n_bins = 0)]
    rfl

/-- Claim C6: with the pseudo-random stream fixed by the same seed, two calls
with identical parameters return band plans that agree field for field. -/
theorem C6_deterministic_given_seed (prng : ℤ → ℕ → ℚ) (p : Params) (seed : ℤ)
    {plan₁ plan₂ : BandPlan}
    (h₁ : generate_band_plan_seeded prng p seed = .ok plan₁)
    (h₂ : generate_band_plan_seeded prng p seed = .ok plan₂) :
    plan₁.freq_span = plan₂.freq_span ∧ plan₁.n_bins = plan₂.n_bins ∧
    plan₁.n_signals = plan₂.n_signals ∧ plan₁.signals = plan₂.signals := by
  have h := h₁.symm.trans h₂
  simp only [Except.ok.injEq] at h
  rw [h]
  exact ⟨rfl, rfl, rfl, rfl⟩

/-- Claim C9: the returned record copies `channel_bandwidth` into `freq_span`
and `n_bins` into `n_bins`, sets `n_signals` to the number of signals
actually accepted, and that number never exceeds the requested
`n_signals`. -/
theorem C9_plan_assembly {p : Params} {σ : ℕ → ℚ} {plan : BandPlan}
    {k tries : ℕ} (h : generateFull p σ = .ok (plan, k, tries)) :
    plan.freq_span = p.channel_bandwidth ∧ plan.n_bins = p.n_bins ∧
    plan.n_signals = plan.signals.length ∧
    plan.signals.length ≤ p.n_signals := by
  obtain ⟨hn0, s₁, hl, hplan⟩ := generateFull_ok_elim h
  obtain ⟨t1, t2, t3⟩ := genLoop_counts p.max_tries [] 0 0 s₁ k tries hl
  subst hplan
  exact ⟨rfl, rfl, rfl, t3 (by simp)⟩

/-- Claim C10 (implicit): when `min_snr_db > max_snr_db` and the other
parameters admit candidate generation, the function does not fail — it
returns a plan whose every SNR lies in the reversed interval
`[max_snr_db, min_snr_db]`. -/
theorem C10_reversed_snr_interval (p : Params) (σ : ℕ → ℚ)
    (hn : 1 ≤ p.n_bins) (hcb : 0 < p.channel_bandwidth)
    (hmsb : 1 ≤ p.max_signal_bins) (hle : p.max_signal_bins ≤ p.n_bins)
    (heven : p.max_signal_bins % 2 = 0 → p.max_signal_bins < p.n_bins)
    (htypes : p.signal_types ≠ []) (hsnr : p.max_snr_db < p.min_snr_db) :
    ∃ plan, generate_band_plan p σ = .ok plan ∧
      ∀ s ∈ plan.signals, p.max_snr_db ≤ s.snr ∧ s.snr ≤ p.min_snr_db := by
  obtain ⟨plan, k, t, hf⟩ := generateFull_ok_of p σ hn hmsb hle heven htypes
  have hgen := generate_of_generateFull hf
  refine ⟨plan, hgen, ?_⟩
  intro s hs
  obtain ⟨hwf, _⟩ := generate_planInv hn hcb hgen
  obtain ⟨_, _, h3, h4, _, _, _, _, _, _⟩ := hwf s hs
  constructor
  · rw [min_eq_right (le_of_lt hsnr)] at h3
    exact h3
  · rw [max_eq_left (le_of_lt hsnr)] at h4
    exact h4

/-- Claim C3, amended: with `1 ≤ max_signal_bins ≤ n_bins`, non-empty
`signal_types`, and excluding the one bad corner (`max_signal_bins` even and
equal to `n_bins`, whose even-width candidate list is empty), every drawn
width has a non-empty candidate subsequence and the function returns a plan
without error. -/
theorem C3_amended_no_failure (p : Params) (σ : ℕ → ℚ)
    (hn : 1 ≤ p.n_bins) (hmsb : 1 ≤ p.max_signal_bins)
    (hle : p.max_signal_bins ≤ p.n_bins)
    (heven : p.max_signal_bins % 2 = 0 → p.max_signal_bins < p.n_bins)
    (htypes : p.signal_types ≠ []) :
    ∃ plan, generate_band_plan p σ = .ok plan := by
  obtain ⟨plan, k, t, hf⟩ := generateFull_ok_of p σ hn hmsb hle heven htypes
  exact ⟨plan, generate_of_generateFull hf⟩

/-- Claim C8, amended: each attempt consumes exactly three raw draws (width,
SNR, center) before the collision check, and the modulation draw happens
only on acceptance, so the final draw counter equals
`3 * tries + accepted`. -/
theorem C8_amended_draw_accounting {p : Params} {σ : ℕ → ℚ} {plan : BandPlan}
    {k tries : ℕ} (h : generateFull p σ = .ok (plan, k, tries)) :
    k = 3 * tries + plan.signals.length := by
  obtain ⟨hn0, s₁, hl, hplan⟩ := generateFull_ok_elim h
  obtain ⟨t1, t2, t3⟩ := genLoop_counts p.max_tries [] 0 0 s₁ k tries hl
  subst hplan
  simp only [List.length_nil] at t2
  show k = 3 * tries + s₁.length
  omega

/-- Claim C3, counterexample: with `n_bins = 2 = max_signal_bins` (both
allowed by the claimed precondition) a drawn width of `2` leaves
`valid_edges = bin_edges[1:1] = []`, and the center draw fails, so
`generate_band_plan` errors. -/
theorem C3_counterexample :
    generate_band_plan ⟨2, 2, 1, 0, 0, ["FM"], 2, 1⟩ (fun _ => 1) =
      .error Err.emptyCenterChoice := by
  rfl

/-- Claim C4, counterexample: for `n_bins = 3`, width `2`, the code's
candidate list (`bin_edges[1 : 2]`, one entry) differs from the spec's
"first and last `half` entries removed" list (two entries). -/
theorem C4_counterexample :
    valid_edges ⟨6, 3, 1, 0, 0, ["FM"], 2, 1⟩ 2 ≠
      valid_edges_spec ⟨6, 3, 1, 0, 0, ["FM"], 2, 1⟩ 2 := by
  intro hEq
  exact absurd (congrArg List.length hEq) (by decide)

/-! ### Concrete evaluation support -/

theorem genCandidate_odd_eval (p : Params) (σ : ℕ → ℚ) (k : ℕ)
    (hmsb : ¬ p.max_signal_bins = 0) (w : ℕ)
    (hw : 1 + (⌊σ k⌋).toNat % p.max_signal_bins = w) (hodd : ¬ w % 2 = 0)
    (l : List ℚ) (hl : valid_centers p w = l) (cf : ℚ)
    (hcf : choice Err.emptyCenterChoice σ (k + 2) l = .ok cf) (e : ℕ)
    (he : listIndex (bin_centers p.channel_bandwidth p.n_bins) cf = e)
    (occ : Finset ℤ)
    (hocc : (Finset.range w).image
      (fun x : ℕ => (e : ℤ) - ((w / 2 : ℕ) : ℤ) + (x : ℤ)) = occ)
    (g : Finset ℤ) (hg : guardOf p.n_bins occ = g) (snr : ℚ)
    (hsnr : uniform σ (k + 1) p.min_snr_db p.max_snr_db = snr) :
    genCandidate p σ k = .ok (⟨w, snr, cf, occ, g⟩, k + 3) := by
  unfold genCandidate
  rw [if_neg hmsb]
  simp only [hw, hsnr]
  rw [if_neg hodd, hl, hcf]
  simp only [he, hocc, hg]

theorem genCandidate_even_eval (p : Params) (σ : ℕ → ℚ) (k : ℕ)
    (hmsb : ¬ p.max_signal_bins = 0) (w : ℕ)
    (hw : 1 + (⌊σ k⌋).toNat % p.max_signal_bins = w) (hev : w % 2 = 0)
    (l : List ℚ) (hl : valid_edges p w = l) (cf : ℚ)
    (hcf : choice Err.emptyCenterChoice σ (k + 2) l = .ok cf) (e : ℕ)
    (he : listIndex (bin_edges p.channel_bandwidth p.n_bins) cf = e)
    (occ : Finset ℤ)
    (hocc : (Finset.range w).image
      (fun x : ℕ => (e : ℤ) - ((w / 2 : ℕ) : ℤ) + (x : ℤ)) = occ)
    (g : Finset ℤ) (hg : guardOf p.n_bins occ = g) (snr : ℚ)
    (hsnr : uniform σ (k + 1) p.min_snr_db p.max_snr_db = snr) :
    genCandidate p σ k = .ok (⟨w, snr, cf, occ, g⟩, k + 3) := by
  unfold genCandidate
  rw [if_neg hmsb]
  simp only [hw, hsnr]
  rw [if_pos hev, hl, hcf]
  simp only [he, hocc, hg]

theorem centersA : bin_centers 8 4 = [-3, -1, 1, 3] := by
  unfold bin_centers
  rw [show List.range 4 = [0, 1, 2, 3] from by decide]
  simp only [List.map_cons, List.map_nil]
  norm_num

theorem vcA : valid_centers pA 1 = [-3, -1, 1, 3] := by
  unfold valid_centers
  rw [show pA.channel_bandwidth = 8 from rfl, show pA.n_bins = 4 from rfl, centersA]
  rfl

theorem idxA0 : listIndex [-3, -1, 1, 3] (-3 : ℚ) = 0 := by
  unfold listIndex
  rw [List.findIdx_cons, decide_eq_true (show (-3 : ℚ) = -3 from rfl), cond_true]

theorem idxA2 : listIndex [-3, -1, 1, 3] (1 : ℚ) = 2 := by
  unfold listIndex
  rw [List.findIdx_cons, decide_eq_false (show ¬ (-3 : ℚ) = 1 by norm_num), cond_false]
  rw [List.findIdx_cons, decide_eq_false (show ¬ (-1 : ℚ) = 1 by norm_num), cond_false]
  rw [List.findIdx_cons, decide_eq_true (show (1 : ℚ) = 1 from rfl), cond_true]

theorem snrA {k : ℕ} : uniform σA k pA.min_snr_db pA.max_snr_db = 0 := by
  show uniform σA k 0 0 = 0
  unfold uniform
  ring

theorem candA1 : genCandidate pA σA 0 = .ok (⟨1, 0, -3, {0}, {3, 1}⟩, 3) := by
  refine genCandidate_odd_eval pA σA 0 (by decide) 1 (by decide) (by decide)
    [-3, -1, 1, 3] vcA (-3) (by exact rfl) 0 ?_ {0} (by decide) {3, 1} (by decide)
    0 snrA
  rw [show pA.channel_bandwidth = 8 from rfl, show pA.n_bins = 4 from rfl, centersA]
  exact idxA0

theorem candA2 : genCandidate pA σA 4 = .ok (⟨1, 0, -3, {0}, {3, 1}⟩, 7) := by
  refine genCandidate_odd_eval pA σA 4 (by decide) 1 (by decide) (by decide)
    [-3, -1, 1, 3] vcA (-3) (by exact rfl) 0 ?_ {0} (by decide) {3, 1} (by decide)
    0 snrA
  rw [show pA.channel_bandwidth = 8 from rfl, show pA.n_bins = 4 from rfl, centersA]
  exact idxA0

theorem candA3 : genCandidate pA σA 7 = .ok (⟨1, 0, 1, {2}, {1, 3}⟩, 10) := by
  refine genCandidate_odd_eval pA σA 7 (by decide) 1 (by decide) (by decide)
    [-3, -1, 1, 3] vcA 1 (by exact rfl) 2 ?_ {2} (by decide) {1, 3} (by decide)
    0 snrA
  rw [show pA.channel_bandwidth = 8 from rfl, show pA.n_bins = 4 from rfl, centersA]
  exact idxA2

theorem loopA : genLoop pA σA 3 [] 0 0 = .ok ([sA0, sA1], 11, 3) := by
  show genLoop pA σA (2 + 1) [] 0 0 = _
  simp only [genLoop]
  rw [if_pos (show ([] : List Signal).length < pA.n_signals by decide)]
  rw [candA1]
  simp only []
  rw [if_neg (show ¬ overlapsAny []
    (⟨1, 0, -3, {0}, {3, 1}⟩ : Candidate).occupied_bins = true by decide)]
  rw [show choice Err.emptyModulationChoice σA 3 pA.signal_types = .ok "FM" from rfl]
  simp only []
  show genLoop pA σA (1 + 1) [sA0] 4 1 = _
  simp only [genLoop]
  rw [if_pos (show ([sA0] : List Signal).length < pA.n_signals by decide)]
  rw [candA2]
  simp only []
  rw [if_pos (show overlapsAny [sA0]
    (⟨1, 0, -3, {0}, {3, 1}⟩ : Candidate).occupied_bins = true by decide)]
  show genLoop pA σA (0 + 1) [sA0] 7 2 = _
  simp only [genLoop]
  rw [if_pos (show ([sA0] : List Signal).length < pA.n_signals by decide)]
  rw [candA3]
  simp only []
  rw [if_neg (show ¬ overlapsAny [sA0]
    (⟨1, 0, 1, {2}, {1, 3}⟩ : Candidate).occupied_bins = true by decide)]
  rw [show choice Err.emptyModulationChoice σA 10 pA.signal_types = .ok "FM" from rfl]
  simp only []
  show genLoop pA σA 0 [sA0, sA1] 11 3 = _
  simp only [genLoop]

theorem evalFullA : generateFull pA σA = .ok (planA, 11, 3) := by
  unfold generateFull
  rw [if_neg (show ¬ pA.n_bins = 0 by decide), show pA.max_tries = 3 from rfl, loopA]
  rfl

theorem evalA : generate_band_plan pA σA = .ok planA :=
  generate_of_generateFull evalFullA

theorem candA3s : genCandidate pA σA 8 = .ok (⟨1, 0, 1, {2}, {1, 3}⟩, 11) := by
  refine genCandidate_odd_eval pA σA 8 (by decide) 1 (by decide) (by decide)
    [-3, -1, 1, 3] vcA 1 (by exact rfl) 2 ?_ {2} (by decide) {1, 3} (by decide)
    0 snrA
  rw [show pA.channel_bandwidth = 8 from rfl, show pA.n_bins = 4 from rfl, centersA]
  exact idxA2

theorem loopAspec : genLoop_spec pA σA 3 [] 0 0 = .ok ([sA0, sA1q], 12, 3) := by
  show genLoop_spec pA σA (2 + 1) [] 0 0 = _
  simp only [genLoop_spec]
  rw [if_pos (show ([] : List Signal).length < pA.n_signals by decide)]
  rw [candA1]
  simp only []
  rw [show choice Err.emptyModulationChoice σA 3 pA.signal_types = .ok "FM" from rfl]
  simp only []
  rw [if_neg (show ¬ overlapsAny []
    (⟨1, 0, -3, {0}, {3, 1}⟩ : Candidate).occupied_bins = true by decide)]
  show genLoop_spec pA σA (1 + 1) [sA0] 4 1 = _
  simp only [genLoop_spec]
  rw [if_pos (show ([sA0] : List Signal).length < pA.n_signals by decide)]
  rw [candA2]
  simp only []
  rw [show choice Err.emptyModulationChoice σA 7 pA.signal_types = .ok "FM" from rfl]
  simp only []
  rw [if_pos (show overlapsAny [sA0]
    (⟨1, 0, -3, {0}, {3, 1}⟩ : Candidate).occupied_bins = true by decide)]
  show genLoop_spec pA σA (0 + 1) [sA0] 8 2 = _
  simp only [genLoop_spec]
  rw [if_pos (show ([sA0] : List Signal).length < pA.n_signals by decide)]
  rw [candA3s]
  simp only []
  rw [show choice Err.emptyModulationChoice σA 11 pA.signal_types = .ok "QPSK" from rfl]
  simp only []
  rw [if_neg (show ¬ overlapsAny [sA0]
    (⟨1, 0, 1, {2}, {1, 3}⟩ : Candidate).occupied_bins = true by decide)]
  show genLoop_spec pA σA 0 [sA0, sA1q] 12 3 = _
  simp only [genLoop_spec]

theorem evalAspec : generate_band_plan_spec pA σA = .ok planAspec := by
  unfold generate_band_plan_spec
  rw [if_neg (show ¬ pA.n_bins = 0 by decide), show pA.max_tries = 3 from rfl, loopAspec]
  rfl

/-- Claim C8, counterexample: on a concrete run with one rejection between
two acceptances, the code's output differs from the spec-ordered loop's
output — the rejected attempt did not consume a modulation draw, so the
second accepted signal's modulation comes from a different stream
position. -/
theorem C8_counterexample :
    generate_band_plan pA σA ≠ generate_band_plan_spec pA σA := by
  rw [evalA, evalAspec]
  intro h
  simp only [Except.ok.injEq] at h
  exact absurd h (by decide)

/-- Claim C7, counterexample: with empty `signal_types` but `max_tries = 0`
the loop never reaches the modulation draw, and a BandPlan is returned
normally — no configuration error. -/
theorem C7_counterexample :
    generate_band_plan ⟨1, 1, 1, 0, 0, [], 1, 0⟩ (fun _ => 0) =
      .ok ⟨1, 1, 0, []⟩ := rfl

/-- Claim C7, amended: an empty `signal_types` only causes a failure once an
accepted candidate reaches the modulation draw, which needs `n_signals ≥ 1`,
`max_tries ≥ 1`, and a configuration under which candidate generation itself
succeeds; the failure is then the empty-choice error on `signal_types`. -/
theorem C7_amended_empty_types {p : Params} (σ : ℕ → ℚ)
    (htypes : p.signal_types = []) (hns : 1 ≤ p.n_signals)
    (hmt : 1 ≤ p.max_tries) (hn : 1 ≤ p.n_bins)
    (hmsb : 1 ≤ p.max_signal_bins) (hle : p.max_signal_bins ≤ p.n_bins)
    (heven : p.max_signal_bins % 2 = 0 → p.max_signal_bins < p.n_bins) :
    generate_band_plan p σ = .error Err.emptyModulationChoice := by
  obtain ⟨c, hc⟩ := genCandidate_ok_of σ 0 hmsb hle heven
  have hloop : genLoop p σ p.max_tries [] 0 0 = .error Err.emptyModulationChoice := by
    obtain ⟨mt, hmt1⟩ : ∃ mt, p.max_tries = mt + 1 := ⟨p.max_tries - 1, by omega⟩
    rw [hmt1]
    simp only [genLoop]
    rw [if_pos (show ([] : List Signal).length < p.n_signals by simpa using hns)]
    rw [hc]
    simp only []
    rw [if_neg (show ¬ overlapsAny [] c.occupied_bins = true by simp [overlapsAny])]
    rw [htypes]
    rfl
  unfold generate_band_plan generateFull
  rw [if_neg (by omega : ¬ p.n_bins = 0), hloop]
  rfl

/-- Claim C4, amended: for an even accepted width the candidate list is
`bin_edges` with the first `half` and the last `half + 1` entries removed
(one more entry than the spec said), and the occupied span is the claimed
`e - half .. e - half + width - 1` where `e` is the edge index recovered
from the drawn center frequency. -/
theorem C4_amended_even_width {p : Params} {σ : ℕ → ℚ} {k : ℕ} {c : Candidate}
    {k₁ : ℕ} (hn : 1 ≤ p.n_bins) (hcb : 0 < p.channel_bandwidth)
    (h : genCandidate p σ k = .ok (c, k₁)) (hev : c.n_bins % 2 = 0) :
    valid_edges p c.n_bins =
      ((bin_edges p.channel_bandwidth p.n_bins).take
        ((bin_edges p.channel_bandwidth p.n_bins).length - (c.n_bins / 2 + 1))).drop
        (c.n_bins / 2) ∧
    c.occupied_bins =
      Finset.Icc
        ((listIndex (bin_edges p.channel_bandwidth p.n_bins) c.center_freq : ℤ)
          - (c.n_bins / 2 : ℕ))
        (((listIndex (bin_edges p.channel_bandwidth p.n_bins) c.center_freq : ℤ)
          - (c.n_bins / 2 : ℕ)) + c.n_bins - 1) := by
  constructor
  · have hcount : p.n_bins - c.n_bins / 2 =
        (bin_edges p.channel_bandwidth p.n_bins).length - (c.n_bins / 2 + 1) := by
      rw [length_bin_edges]
      omega
    rw [valid_edges, hcount]
  · obtain ⟨_, _, _, lo, hocc, _, _, _, hloeq⟩ := genCandidate_ok_wf hn hcb h
    rw [hocc, hloeq hev]

theorem edgesD : bin_edges 6 3 = [-3, -1, 1, 3] := by
  unfold bin_edges
  rw [show List.range 4 = [0, 1, 2, 3] from by decide]
  simp only [List.map_cons, List.map_nil]
  norm_num

theorem veD : valid_edges pD 2 = [-1] := by
  unfold valid_edges
  rw [show pD.channel_bandwidth = 6 from rfl, show pD.n_bins = 3 from rfl, edgesD]
  rfl

theorem idxD1 : listIndex [-3, -1, 1, 3] (-1 : ℚ) = 1 := by
  unfold listIndex
  rw [List.findIdx_cons, decide_eq_false (show ¬ (-3 : ℚ) = -1 by norm_num), cond_false]
  rw [List.findIdx_cons, decide_eq_true (show (-1 : ℚ) = -1 from rfl), cond_true]

theorem snrD {k : ℕ} : uniform σD k pD.min_snr_db pD.max_snr_db = 0 := by
  show uniform σD k 0 0 = 0
  unfold uniform
  ring

theorem candD : genCandidate pD σD 0 = .ok (⟨2, 0, -1, {0, 1}, {2}⟩, 3) := by
  refine genCandidate_even_eval pD σD 0 (by decide) 2 (by decide) (by decide)
    [-1] veD (-1) (by exact rfl) 1 ?_ {0, 1} (by decide) {2} (by decide) 0 snrD
  rw [show pD.channel_bandwidth = 6 from rfl, show pD.n_bins = 3 from rfl, edgesD]
  exact idxD1

/-! ### Witnesses -/

theorem C1_witness :
    sA0.occupied_bins ∩ sA1.occupied_bins = ∅ ∧
    sA0.occupied_bins ∩ (sA1.occupied_bins ∪ sA1.guard_bins) = ∅ :=
  C1_symmetric_disjointness (by decide) (by norm_num [pA]) evalA 0 1
    (by decide) (by decide) (by decide)

theorem C2_witness :
    (∃ lo : ℤ, sA0.occupied_bins = Finset.Icc lo (lo + sA0.n_bins - 1) ∧
      sA0.occupied_bins.card = sA0.n_bins ∧ 0 ≤ lo ∧
      lo + sA0.n_bins - 1 < pA.n_bins) ∧
    (∀ b ∈ sA0.guard_bins, 0 ≤ b ∧ b < pA.n_bins) ∧
    pA.min_snr_db ≤ sA0.snr ∧ sA0.snr ≤ pA.max_snr_db ∧
    sA0.modulation_type ∈ pA.signal_types :=
  C2_per_signal_wellformed (by decide) (by norm_num [pA]) (by decide) (by decide)
    (le_refl 0) (by decide) evalA sA0 (by decide)

theorem C3_amended_witness : ∃ plan, generate_band_plan pA σA = .ok plan :=
  C3_amended_no_failure pA σA (by decide) (by decide) (by decide) (by decide)
    (by decide)

theorem C4_amended_witness :
    valid_edges pD 2 =
      ((bin_edges pD.channel_bandwidth pD.n_bins).take
        ((bin_edges pD.channel_bandwidth pD.n_bins).length - (2 / 2 + 1))).drop (2 / 2) ∧
    ({0, 1} : Finset ℤ) =
      Finset.Icc
        ((listIndex (bin_edges pD.channel_bandwidth pD.n_bins) (-1) : ℤ) - ((2 : ℕ) / 2 : ℕ))
        (((listIndex (bin_edges pD.channel_bandwidth pD.n_bins) (-1) : ℤ) - ((2 : ℕ) / 2 : ℕ))
          + 2 - 1) :=
  C4_amended_even_width (by decide) (by norm_num [pD]) candD (by decide)

theorem C5_witness :
    (∀ plan k tries, generateFull pA σA = .ok (plan, k, tries) →
      tries ≤ pA.max_tries) ∧
    (pA.max_tries = 0 →
      generate_band_plan pA σA = .ok ⟨pA.channel_bandwidth, pA.n_bins, 0, []⟩) :=
  C5_bounded_tries pA σA (by decide)

theorem C6_witness :
    (⟨8, 4, 0, []⟩ : BandPlan).freq_span = (⟨8, 4, 0, []⟩ : BandPlan).freq_span ∧
    (⟨8, 4, 0, []⟩ : BandPlan).n_bins = (⟨8, 4, 0, []⟩ : BandPlan).n_bins ∧
    (⟨8, 4, 0, []⟩ : BandPlan).n_signals = (⟨8, 4, 0, []⟩ : BandPlan).n_signals ∧
    (⟨8, 4, 0, []⟩ : BandPlan).signals = (⟨8, 4, 0, []⟩ : BandPlan).signals :=
  C6_deterministic_given_seed (fun _ _ => 0) pT 0
    (rfl : generate_band_plan_seeded (fun _ _ => 0) pT 0 = .ok ⟨8, 4, 0, []⟩)
    (rfl : generate_band_plan_seeded (fun _ _ => 0) pT 0 = .ok ⟨8, 4, 0, []⟩)

theorem C7_amended_witness :
    generate_band_plan pC7 σZ = .error Err.emptyModulationChoice :=
  C7_amended_empty_types σZ rfl (by decide) (by decide) (by decide) (by decide)
    (by decide) (by decide)

theorem C8_amended_witness : (11 : ℕ) = 3 * 3 + planA.signals.length :=
  C8_amended_draw_accounting evalFullA

theorem C9_witness :
    planA.freq_span = pA.channel_bandwidth ∧ planA.n_bins = pA.n_bins ∧
    planA.n_signals = planA.signals.length ∧
    planA.signals.length ≤ pA.n_signals :=
  C9_plan_assembly evalFullA

theorem C10_witness :
    ∃ plan, generate_band_plan pC10 σZ = .ok plan ∧
      ∀ s ∈ plan.signals, pC10.max_snr_db ≤ s.snr ∧ s.snr ≤ pC10.min_snr_db :=
  C10_reversed_snr_interval pC10 σZ (by decide) (by norm_num [pC10]) (by decide)
    (by decide) (by decide) (by decide) (by norm_num [pC10])
